import Mathlib

/-!
Shallow embedding of the GomoryMethod repository (two-phase simplex +
Gomory cutting planes over exact fractions).

Conventions of the embedding:
* Python `Fraction` is Lean `Rat` (both are reduced, positive denominator;
  Python `n % d` for `d > 0` is Lean `Int.emod`, both nonnegative).
* A tableau is a list of rows of rationals; `getD`/`getLastD` model Python
  indexing (`t[i]`, `row[-1]`); all uses stay in range on the executions
  considered here, matching the in-range indexing of the Python code.
* Constraint strings are modelled in already-tokenized form (a list of
  signed coefficient/1-based-index pairs, a relational operator, a RHS),
  exactly the shape the parsing loop of `construct_simplex_table` extracts
  from the token stream.
* `while` loops are modelled with explicit fuel; running out of fuel is the
  distinguished outcome `PyErr.fuelOut`.  Python exceptions (`TypeError`
  from calling `find_key_column()` without its required positional
  argument inside `phase1`, `ValueError`, `ZeroDivisionError`) are the
  other `PyErr` constructors.
* `abs(float(x)) % 1` in `find_max_fractional_index` is modelled by the
  exact fractional part of `|x|`; on the runs considered here the rational
  values compared are far enough apart that the float comparison and the
  exact comparison agree.
* Python dicts keyed by labels `x_k` are modelled as insertion-ordered
  association lists keyed by the 0-based variable index `k-1`.
-/

abbrev Row := List Rat

abbrev Table := List Row

/-- Python exceptions and fuel exhaustion for the fueled loops. -/
inductive PyErr where
  | typeError
  | valueError (msg : String)
  | zeroDivision
  | fuelOut
deriving DecidableEq, Repr

/-- Relational operator of a constraint (`<=`, `>=`, `=`). -/
inductive Relation where
  | le
  | ge
  | eq
deriving DecidableEq, Repr

/-- A tokenized constraint: signed coefficients with their 1-based variable
indices, the relational operator, and the right-hand side. -/
structure Constraint where
  coeffs : List (Rat × Nat)
  rel : Relation
  rhs : Rat
deriving DecidableEq, Repr

/-- A tokenized objective: direction (`maximize` iff `isMax`) and signed
coefficients with their 1-based variable indices. -/
structure Objective where
  isMax : Bool
  coeffs : List (Rat × Nat)
deriving DecidableEq, Repr

/-- `FunctionalApproach/table_tools.py`, `sum_rows`. -/
def sum_rows (row1 row2 : Row) : Row :=
  (List.range row1.length).map (fun i => row1.getD i 0 + row2.getD i 0)

/-- `FunctionalApproach/table_tools.py`, `multiply_const_row`. -/
def multiply_const_row (c : Rat) (row : Row) : Row :=
  row.map (fun i => c * i)

/-- `FunctionalApproach/utils.py`, `get_fraction`. -/
def get_fraction (numerator denominator : Int) : Rat :=
  (numerator : Rat) / (denominator : Rat)

/-- Python dict insertion: overwrite in place if the key exists, else append. -/
def dictInsert (d : List (Nat × Rat)) (k : Nat) (v : Rat) : List (Nat × Rat) :=
  if d.any (fun p => p.1 = k) then
    d.map (fun p => if p.1 = k then (k, v) else p)
  else
    d ++ [(k, v)]

/-- One constraint row of the fill loop of `construct_simplex_table`: the
decision-variable coefficients are written at their columns, the operator
writes the slack/artificial coefficients at the running `s_index`/`r_index`
columns, and the last column receives the RHS.  Returns the filled row, the
updated `s_index` and `r_index`, and whether an artificial row was recorded
in `r_rows`. -/
def fillRow (row : Row) (c : Constraint) (s_index r_index : Nat) :
    Row × Nat × Nat × Bool :=
  let row := c.coeffs.foldl (fun r p => r.set (p.2 - 1) p.1) row
  let (row, s', r', isR) :=
    match c.rel with
    | .le => (row.set s_index 1, s_index + 1, r_index, false)
    | .ge => ((row.set s_index (-1)).set r_index 1, s_index + 1, r_index + 1, true)
    | .eq => (row.set r_index 1, s_index, r_index + 1, true)
  (row.set (row.length - 1) c.rhs, s', r', isR)

/-- `FunctionalApproach/utils.py`, `construct_simplex_table` (identical to
the matrix construction in `ObjectOrientedApproach/simplex_table.py`,
`SimplexTable.__init__`).  Note the counting loop increments `num_r_vars` for `<=` and
`=` while the fill loop consumes an `r` column for `>=` and `=`; both are
embedded exactly as written.  Returns `(coeff_matrix, r_rows, num_s_vars,
num_r_vars)`. -/
def construct_simplex_table (constraints : List Constraint) (num_vars : Nat) :
    Table × List Nat × Nat × Nat :=
  let counts := constraints.foldl
    (fun (p : Nat × Nat) c =>
      match c.rel with
      | .ge => (p.1 + 1, p.2)
      | .le => (p.1 + 1, p.2 + 1)
      | .eq => (p.1, p.2 + 1))
    (0, 0)
  let num_s_vars := counts.1
  let num_r_vars := counts.2
  let total_vars := num_vars + num_s_vars + num_r_vars
  let init : Table :=
    List.replicate (constraints.length + 1) (List.replicate (total_vars + 1) 0)
  let final := constraints.foldl
    (fun (acc : Table × Nat × Nat × List Nat × Nat) c =>
      let (tbl, s, r, rr, i) := acc
      let (row, s', r', isR) := fillRow (tbl.getD i []) c s r
      (tbl.set i row, s', r', if isR then rr ++ [i] else rr, i + 1))
    (init, num_vars, num_vars + num_s_vars, ([] : List Nat), 1)
  (final.1, final.2.2.2.1, num_s_vars, num_r_vars)

/-- `FunctionalApproach/utils.py`, `update_objective_function`: writes each
objective coefficient (negated for `min`, kept for `max` after the extra
`*= -1`) into row 0 at the column of the variable. -/
def update_objective_function (t : Table) (coeffs : List (Rat × Nat))
    (isMax : Bool) : Table :=
  coeffs.foldl
    (fun t p =>
      let v : Rat := if isMax then p.1 else -p.1
      t.set 0 ((t.headD []).set (p.2 - 1) v))
    t

/-- `FunctionalApproach/utils.py`, `create_solution`: basic decision
variables take the RHS of their row, remaining decision variables take 0. -/
def create_solution (t : Table) (basic_vars : List Nat) (num_vars : Nat) :
    List (Nat × Rat) :=
  let s := ((basic_vars.drop 1).enum).foldl
    (fun s p =>
      if p.2 < num_vars then dictInsert s p.2 ((t.getD (p.1 + 1) []).getLastD 0)
      else s)
    ([] : List (Nat × Rat))
  (List.range num_vars).foldl
    (fun s i => if i ∈ basic_vars.drop 1 then s else dictInsert s i 0) s

/-- `FunctionalApproach/simplex_module.py`, `check_condition`: true iff every
entry of row 0 (the RHS included — `F` is the whole row) is `≤ 0`. -/
def check_condition (t : Table) : Bool :=
  (t.headD []).all (fun x => decide (x ≤ 0))

/-- `FunctionalApproach/simplex_module.py`, `find_key_column`: last column
index (RHS excluded) whose row-0 entry has maximal absolute value. -/
def find_key_column (t : Table) : Nat :=
  let F := t.headD []
  (List.range (F.length - 1)).foldl
    (fun k i => if |F.getD i 0| ≥ |F.getD k 0| then i else k) 0

/-- `FunctionalApproach/simplex_module.py`, `find_key_row`: minimum-ratio
test over rows with a strictly positive key-column entry; first minimum
kept; `ValueError("Unbounded solution")` when no candidate exists.  The
returned Bool records whether the `Dengeneracy` warning was issued
(minimum ratio exactly 0). -/
def find_key_row (t : Table) (key_column : Nat) :
    Except PyErr (Nat × Bool) :=
  let r := (List.range' 1 (t.length - 1)).foldl
    (fun (acc : Option Rat × Nat) i =>
      if 0 < (t.getD i []).getD key_column 0 then
        let val := (t.getD i []).getLastD 0 / (t.getD i []).getD key_column 0
        match acc.1 with
        | none => (some val, i)
        | some m => if val < m then (some val, i) else acc
      else acc)
    (none, 0)
  match r.1 with
  | none => .error (.valueError "Unbounded solution")
  | some m => .ok (r.2, decide (m = 0))

/-- `FunctionalApproach/simplex_module.py`, `normalize_to_pivot`: divides the
first `len(t[0])` entries of the key row by the pivot. -/
def normalize_to_pivot (t : Table) (key_row : Nat) (pivot : Rat) : Table :=
  let n := (t.headD []).length
  t.set key_row
    ((t.getD key_row []).mapIdx (fun i v => if i < n then v / pivot else v))

/-- `FunctionalApproach/simplex_module.py`, `make_key_column_zero`: from every
row other than the key row, subtract `factor` times the key row, where
`factor` is the key-column entry of that row. -/
def make_key_column_zero (t : Table) (key_column key_row : Nat) : Table :=
  let n := (t.headD []).length
  let key := t.getD key_row []
  t.mapIdx
    (fun i row =>
      if i = key_row then row
      else
        let factor := row.getD key_column 0
        row.mapIdx (fun j v => if j < n then v - key.getD j 0 * factor else v))

/-- `FunctionalApproach/simplex_module.py`, `simplex_step` (identical to
`SimplexMethod.simplex_step`). -/
def simplex_step (t : Table) (basic_vars : List Nat)
    (key_column key_row : Nat) : Table × List Nat :=
  let basic_vars := basic_vars.set key_row key_column
  let pivot := (t.getD key_row []).getD key_column 0
  let t := normalize_to_pivot t key_row pivot
  let t := make_key_column_zero t key_column key_row
  (t, basic_vars)

/-- `FunctionalApproach/simplex_module.py`, `delete_r_vars`: each row is
truncated to `num_vars + num_s_vars + 1` entries by repeatedly deleting the
element at position `num_vars + num_s_vars`, which keeps the first
`num_vars + num_s_vars` entries and the last (RHS) entry. -/
def delete_r_vars (t : Table) (num_vars num_s_vars : Nat) : Table :=
  let non_r_length := num_vars + num_s_vars + 1
  t.map (fun row =>
    if row.length = non_r_length then row
    else row.take (non_r_length - 1) ++ [row.getLastD 0])

/-- `FunctionalApproach/simplex_module.py`, `phase1`.  The set-up (auxiliary
objective, folding the artificial rows into row 0, and the initial
basic-variable assignment) is as in the source.  The body of the original
`while` loop calls the module-level `find_key_column()` without its required
positional argument, so entering the loop raises a `TypeError`; the loop is
therefore modelled as: succeed (with an empty history) when the optimality
condition already holds, and raise `TypeError` otherwise. -/
def phase1 (t : Table) (basic_vars : List Nat) (r_rows : List Nat)
    (num_vars num_s_vars : Nat) :
    Except PyErr (Table × List Nat × List Table) :=
  let r_index := num_vars + num_s_vars
  let ncols := (t.headD []).length
  let t := t.set 0
    ((t.headD []).mapIdx
      (fun j v => if r_index ≤ j ∧ j + 1 < ncols then -1 else v))
  let folded := r_rows.foldl
    (fun (acc : Table × List Nat × Nat) i =>
      let (t, b, ri) := acc
      (t.set 0 (sum_rows (t.headD []) (t.getD i [])), b.set i ri, ri + 1))
    (t, basic_vars, r_index)
  let t := folded.1
  let b := folded.2.1
  let filled := (List.range' 1 (b.length - 1)).foldl
    (fun (acc : List Nat × Nat) i =>
      if acc.1.getD i 0 = 0 then (acc.1.set i acc.2, acc.2 + 1) else acc)
    (b, num_vars)
  let b := filled.1
  if check_condition t then .ok (t, b, [])
  else .error .typeError

/-- The phase-2 objective-row re-normalization loop of
`FunctionalApproach/simplex_module.py`, `simplex_solve`: for each
`(row, column)` in `enumerate(basic_vars[1:])` with `t[0][column] ≠ 0`,
add `-t[0][column] * t[row]` to row 0.  Note the source reads `t[row]`,
i.e. rows `0, 1, ...`. -/
def funcRenorm (t : Table) (basic_vars : List Nat) : Table :=
  ((basic_vars.drop 1).enum).foldl
    (fun t p =>
      if (t.headD []).getD p.2 0 ≠ 0 then
        let c := -((t.headD []).getD p.2 0)
        t.set 0 (sum_rows (t.headD []) (multiply_const_row c (t.getD p.1 [])))
      else t)
    t

/-- The phase-2 `while not check_condition` pivot loop of `simplex_solve`
(also the loop of `SimplexMethod.solve`), with fuel. -/
def phase2Loop :
    Nat → Table → List Nat → List Table → List (List Nat) →
    Except PyErr (Table × List Nat × List Table × List (List Nat))
  | 0, _, _, _, _ => .error .fuelOut
  | fuel + 1, t, b, hist, bhist =>
    if check_condition t then .ok (t, b, hist, bhist)
    else
      match find_key_row t (find_key_column t) with
      | .error e => .error e
      | .ok (key_row, _) =>
        let s := simplex_step t b (find_key_column t) key_row
        phase2Loop fuel s.1 s.2 (hist ++ [s.1]) (bhist ++ [s.2])

/-- Result of `simplex_solve`: optimum (RHS of row 0), solution dict, and the
tableau/basic-variable histories (initial entry followed by one entry per
pivot). -/
structure SimplexResult where
  optimum : Rat
  solution : List (Nat × Rat)
  hist : List Table
  bhist : List (List Nat)
deriving DecidableEq, Repr

/-- `FunctionalApproach/simplex_module.py`, `simplex_solve`, with fuel for
the phase-2 loop. -/
def simplex_solve (fuel : Nat) (num_vars : Nat)
    (constraints : List Constraint) (objective : Objective) :
    Except PyErr SimplexResult := do
  let (t0, r_rows, num_s_vars, num_r_vars) :=
    construct_simplex_table constraints num_vars
  let b0 := List.replicate t0.length 0
  let (t1, b1, _) ← phase1 t0 b0 r_rows num_vars num_s_vars
  let r_index := num_r_vars + num_s_vars
  if b1.any (fun i => r_index < i) then
    .error (.valueError "Infeasible solution")
  else
    let t2 := delete_r_vars t1 num_vars num_s_vars
    let t3 := update_objective_function t2 objective.coeffs objective.isMax
    let t4 := funcRenorm t3 b1
    let (t5, b5, hist, bhist) ← phase2Loop fuel t4 b1 [t4] [b1]
    return { optimum := (t5.headD []).getLastD 0
             solution := create_solution t5 b5 num_vars
             hist := hist
             bhist := bhist }

/-- `FunctionalApproach/gomory_module.py`, `check_integer_condition`: every
constraint-row RHS is nonnegative and has denominator 1. -/
def check_integer_condition (t : Table) : Bool :=
  let B := (t.drop 1).map (fun x => x.getLastD 0)
  B.all (fun x => decide (0 ≤ x)) && B.all (fun x => decide (x.den = 1))

/-- Exact model of `abs(float(x)) % 1`: fractional part of `|x|`. -/
def pyFloatFrac (x : Rat) : Rat :=
  |x| - ((⌊|x|⌋ : Int) : Rat)

/-- `FunctionalApproach/gomory_module.py`, `find_max_fractional_index`: row
(from 1) whose RHS has the maximal fractional part, first maximum kept. -/
def find_max_fractional_index (t : Table) : Nat :=
  (List.range' 1 (t.length - 1)).foldl
    (fun m i =>
      if pyFloatFrac ((t.getD i []).getLastD 0) >
          pyFloatFrac ((t.getD m []).getLastD 0) then i else m)
    1

/-- Python `row.insert(-1, v)` for a nonempty row: insert before the last
element. -/
def insertBeforeLast (row : Row) (v : Rat) : Row :=
  row.dropLast ++ [v, row.getLastD 0]

/-- `FunctionalApproach/gomory_module.py`, `add_clipping` (identical to
`GomoryMethod._add_clipping` up to the unused `clipping_history`): append a
zero row, insert a new column before the RHS (1 in the new row, 0
elsewhere), then overwrite the new row at every column where the source row
(after the insertion) is nonzero with
`-(numerator % denominator) / denominator`, and register `len(table) - 1`
as the new basic variable. -/
def add_clipping (t : Table) (basic_vars : List Nat) : Table × List Nat :=
  let index := find_max_fractional_index t
  let ncols := (t.headD []).length
  let rows := t.map (fun row => insertBeforeLast row 0)
  let cutInit := insertBeforeLast (List.replicate ncols 0) 1
  let src := rows.getD index []
  let cut := List.zipWith
    (fun c init =>
      if c ≠ 0 then get_fraction (-(c.num % (c.den : Int))) (c.den : Int)
      else init)
    src cutInit
  (rows ++ [cut], basic_vars ++ [t.length])

/-- `FunctionalApproach/gomory_module.py`, `get_key_row`: clamp each
constraint-row RHS at 0 from above, then take the last index of maximal
absolute value, returned 1-based. -/
def get_key_row (t : Table) : Nat :=
  let beta := (t.drop 1).map
    (fun x => if x.getLastD 0 < 0 then x.getLastD 0 else (0 : Rat))
  let key := (List.range beta.length).foldl
    (fun k b => if |beta.getD b 0| ≥ |beta.getD k 0| then b else k) 0
  key + 1

/-- `inf`-aware `≤` on the theta ratios of `get_key_column` (`none` is the
float infinity sentinel; Python has `inf <= inf`). -/
def leInf : Option Rat → Option Rat → Bool
  | _, none => true
  | none, some _ => false
  | some a, some b => decide (a ≤ b)

/-- `FunctionalApproach/gomory_module.py`, `get_key_column`: theta ratios
`row0[j] / keyrow[j]` over the columns `0 .. len-3` with a negative key-row
entry (`inf` otherwise), last minimal index kept. -/
def get_key_column (t : Table) (key_row : Nat) : Nat :=
  let xs := (t.headD []).dropLast.dropLast
  let ys := (t.getD key_row []).dropLast.dropLast
  let tetha := (xs.zip ys).map
    (fun p => if p.2 < 0 then some (p.1 / p.2) else (none : Option Rat))
  (List.range tetha.length).foldl
    (fun k i => if leInf (tetha.getD i none) (tetha.getD k none) then i else k) 0

/-- The `while not check_integer_condition` loop of `gomory_solve`, with
fuel.  Python raises `ZeroDivisionError` inside `normalize_to_pivot` when
the selected pivot entry is 0. -/
def gomoryLoop :
    Nat → Table → List Nat → List Table → List (List Nat) →
    Except PyErr (Table × List Nat × List Table × List (List Nat))
  | 0, _, _, _, _ => .error .fuelOut
  | fuel + 1, t, b, hist, bhist =>
    if check_integer_condition t then .ok (t, b, hist, bhist)
    else
      let s := add_clipping t b
      let key_row := get_key_row s.1
      let key_column := get_key_column s.1 key_row
      if (s.1.getD key_row []).getD key_column 0 = 0 then .error .zeroDivision
      else
        let s' := simplex_step s.1 s.2 key_column key_row
        gomoryLoop fuel s'.1 s'.2 (hist ++ [s'.1]) (bhist ++ [s'.2])

/-- Return value of `gomory_solve`: a 2-tuple when the relaxation is already
integral, a 4-tuple otherwise. -/
inductive GomoryReturn where
  | pair (optimum : Rat) (solution : List (Nat × Rat))
  | quad (optimum : Rat) (solution : List (Nat × Rat))
      (hist : List Table) (bhist : List (List Nat))
deriving DecidableEq, Repr

/-- `FunctionalApproach/gomory_module.py`, `gomory_solve`, with fuel.  The
working tableau and basic variables are taken from the last history entries
of the simplex solve, as in the source; the relaxation result is returned
as a 2-tuple when already integral, otherwise the Gomory loop runs and a
4-tuple is returned. -/
def gomory_solve (fuel : Nat) (num_vars : Nat)
    (constraints : List Constraint) (objective : Objective) :
    Except PyErr GomoryReturn :=
  match simplex_solve fuel num_vars constraints objective with
  | .error e => .error e
  | .ok s =>
    let t := s.hist.getLastD []
    let b := s.bhist.getLastD []
    if check_integer_condition t then
      .ok (.pair ((t.headD []).getLastD 0) s.solution)
    else
      match gomoryLoop fuel t b (s.hist ++ [t]) (s.bhist ++ [b]) with
      | .error e => .error e
      | .ok (t', b', h, bh) =>
        .ok (.quad ((t'.headD []).getLastD 0) (create_solution t' b' num_vars) h bh)

/-- The four-name unpacking in `main.py` of the `gomory_solve` return: a
2-tuple raises `ValueError` (`not enough values to unpack`). -/
def unpackFour (r : GomoryReturn) :
    Except PyErr (Rat × List (Nat × Rat) × List Table × List (List Nat)) :=
  match r with
  | .pair _ _ => .error (.valueError "not enough values to unpack")
  | .quad opt sol h bh => .ok (opt, sol, h, bh)

/-- `ObjectOrientedApproach/simplex_table.py`, `SimplexTable.multiply_const_row`:
multiplies row `index + 1` by the constant. -/
def oo_multiply_const_row (t : Table) (c : Rat) (index : Nat) : Row :=
  (t.getD (index + 1) []).map (fun i => c * i)

/-- The re-normalization loop of `ObjectOrientedApproach/simplex_method.py`,
`SimplexMethod.solve`: as `funcRenorm` but scaling row `row + 1` (via
`SimplexTable.multiply_const_row`). -/
def ooRenorm (t : Table) (basic_vars : List Nat) : Table :=
  ((basic_vars.drop 1).enum).foldl
    (fun t p =>
      if (t.headD []).getD p.2 0 ≠ 0 then
        let c := -((t.headD []).getD p.2 0)
        t.set 0 (sum_rows (t.headD []) (oo_multiply_const_row t c p.1))
      else t)
    t

/-- `ObjectOrientedApproach/simplex_method.py`, `SimplexMethod.__init__`:
builds the tableau (with the objective row filled at construction time by
`SimplexTable._update_objective_function`), leaves `basic_vars` all zero
(`_phase1` is never called), runs the (vacuous) infeasibility check, and
drops the `r` columns.  Returns the tableau and basic variables handed to
`solve`. -/
def ooInit (num_vars : Nat) (constraints : List Constraint)
    (objective : Objective) : Except PyErr (Table × List Nat) := do
  let (t0, _r_rows, num_s_vars, num_r_vars) :=
    construct_simplex_table constraints num_vars
  let t1 := update_objective_function t0 objective.coeffs objective.isMax
  let b := List.replicate t1.length 0
  let r_index := num_r_vars + num_s_vars
  if b.any (fun i => r_index < i) then
    .error (.valueError "Infeasible solution")
  else
    return (delete_r_vars t1 num_vars num_s_vars, b)

/-- `ObjectOrientedApproach/simplex_method.py`, `SimplexMethod.solve`, with
fuel: re-normalize row 0 (OO variant), then run the shared pivot loop. -/
def oo_solve (fuel : Nat) (num_vars : Nat) (constraints : List Constraint)
    (objective : Objective) : Except PyErr SimplexResult := do
  let (t, b) ← ooInit num_vars constraints objective
  let t4 := ooRenorm t b
  let (t5, b5, hist, bhist) ← phase2Loop fuel t4 b [t4] [b]
  return { optimum := (t5.headD []).getLastD 0
           solution := create_solution t5 b5 num_vars
           hist := hist
           bhist := bhist }

/-- The worked example of both `main.py` files: `maximize 8x_1 + 6x_2`
subject to `2x_1 + 5x_2 <= 19` and `4x_1 + 1x_2 <= 16`. -/
def sampleConstraints : List Constraint :=
  [⟨[(2, 1), (5, 2)], .le, 19⟩, ⟨[(4, 1), (1, 2)], .le, 16⟩]

/-- The sample objective `maximize 8x_1 + 6x_2`. -/
def sampleObjective : Objective := ⟨true, [(8, 1), (6, 2)]⟩

/-- Extract the optimum from a `simplex_solve` result, if it succeeded. -/
def simplexOptimum (r : Except PyErr SimplexResult) : Option Rat :=
  match r with
  | .ok s => some s.optimum
  | .error _ => none

/-- Extract the solution dict from a `simplex_solve` result, if it
succeeded. -/
def simplexSolution (r : Except PyErr SimplexResult) :
    Option (List (Nat × Rat)) :=
  match r with
  | .ok s => some s.solution
  | .error _ => none

/-! Small `getD`-based indexing API used by the proofs below. -/

/-- `headD` as a `getD`. -/
theorem headD_eq_getD {α : Type _} (l : List α) (d : α) :
    l.headD d = l.getD 0 d := by
  cases l <;> rfl

/-- `getLastD` as a `getD` at the last position. -/
theorem getLastD_eq_getD {α : Type _} (l : List α) (d : α) :
    l.getLastD d = l.getD (l.length - 1) d := by
  induction l with
  | nil => rfl
  | cons a l ih =>
    cases l with
    | nil => rfl
    | cons b m =>
      simpa [List.getLastD] using ih

/-- `getD` after `set` at the written position. -/
theorem getD_set_self {α : Type _} (l : List α) (i : Nat) (a d : α)
    (h : i < l.length) : (l.set i a).getD i d = a := by
  simp [List.getD_eq_getElem?_getD, List.getElem?_set_self h]

/-- `getD` after `set` at another position. -/
theorem getD_set_ne {α : Type _} (l : List α) (i j : Nat) (a d : α)
    (h : i ≠ j) : (l.set i a).getD j d = l.getD j d := by
  simp [List.getD_eq_getElem?_getD, List.getElem?_set_ne h]

/-- `getD` of a `mapIdx` in range. -/
theorem getD_mapIdx {α : Type _} (l : List α) (f : Nat → α → α) (i : Nat)
    (d : α) (h : i < l.length) :
    (l.mapIdx f).getD i d = f i (l.getD i d) := by
  have h' : i < (l.mapIdx f).length := by simpa using h
  rw [List.getD_eq_getElem _ _ h', List.getD_eq_getElem _ _ h]
  simp

/-- `getD` of a `map` in range. -/
theorem getD_map {α β : Type _} (l : List α) (f : α → β) (i : Nat)
    (d : β) (d' : α) (h : i < l.length) :
    (l.map f).getD i d = f (l.getD i d') := by
  have h' : i < (l.map f).length := by simpa using h
  rw [List.getD_eq_getElem _ _ h', List.getD_eq_getElem _ _ h]
  simp

/-- `getD` of a `drop` shifts the index. -/
theorem getD_drop {α : Type _} (l : List α) (n i : Nat) (d : α) :
    (l.drop n).getD i d = l.getD (n + i) d := by
  induction l generalizing n with
  | nil => simp [List.getD_eq_getElem?_getD]
  | cons a l ih =>
    cases n with
    | zero => simp
    | succ m => simp [Nat.succ_add, ih m]

/-- `getD` of an append, left part. -/
theorem getD_append_left {α : Type _} (l₁ l₂ : List α) (i : Nat) (d : α)
    (h : i < l₁.length) : (l₁ ++ l₂).getD i d = l₁.getD i d := by
  simp [List.getD_eq_getElem?_getD, List.getElem?_append_left h]

/-- `getD` of an append, right part. -/
theorem getD_append_right {α : Type _} (l₁ l₂ : List α) (i : Nat) (d : α)
    (h : l₁.length ≤ i) :
    (l₁ ++ l₂).getD i d = l₂.getD (i - l₁.length) d := by
  simp [List.getD_eq_getElem?_getD, List.getElem?_append_right h]

/-- `getD` of a `zipWith` with both arguments in range. -/
theorem getD_zipWith {α β γ : Type _} (f : α → β → γ) (l₁ : List α)
    (l₂ : List β) (i : Nat) (d : γ) (d₁ : α) (d₂ : β)
    (h₁ : i < l₁.length) (h₂ : i < l₂.length) :
    (List.zipWith f l₁ l₂).getD i d = f (l₁.getD i d₁) (l₂.getD i d₂) := by
  rw [List.getD_eq_getElem?_getD, List.getElem?_zipWith,
    List.getD_eq_getElem _ _ h₁, List.getD_eq_getElem _ _ h₂,
    List.getElem?_eq_getElem h₁, List.getElem?_eq_getElem h₂]
  rfl

/-- `getD` of a `replicate` in range. -/
theorem getD_replicate {α : Type _} (n i : Nat) (a d : α) (h : i < n) :
    (List.replicate n a).getD i d = a := by
  have h' : i < (List.replicate n a).length := by simpa using h
  rw [List.getD_eq_getElem _ _ h']
  simp

/-! Extractors used to state concrete-run results. -/

/-- Extract `(optimum, solution)` from a 4-tuple `gomory_solve` return. -/
def gomoryQuadSummary (r : Except PyErr GomoryReturn) :
    Option (Rat × List (Nat × Rat)) :=
  match r with
  | .ok (.quad o s _ _) => some (o, s)
  | _ => none

/-- The first recorded history table of a successful solve (the
post-re-normalization tableau labelled Initial Simplex-method). -/
def firstHist (r : Except PyErr SimplexResult) : Option Table :=
  match r with
  | .ok s => some (s.hist.headD [])
  | .error _ => none

/-- The raised exception of a failed solve, if any. -/
def solveErr (r : Except PyErr SimplexResult) : Option PyErr :=
  match r with
  | .error e => some e
  | .ok _ => none

/-- Whether the final relaxation tableau of a successful solve satisfies the
integer condition. -/
def relaxIntegral (r : Except PyErr SimplexResult) : Option Bool :=
  match r with
  | .ok s => some (check_integer_condition (s.hist.getLastD []))
  | .error _ => none

section ConcreteRuns

attribute [local semireducible] Rat.mul Rat.add Rat.inv Rat.sub

set_option maxRecDepth 40000

/-- C1, counterexample: on the worked input (`num_vars = 2`, constraints
`2x_1 + 5x_2 <= 19` and `4x_1 + 1x_2 <= 16`, `maximize 8x_1 + 6x_2`), the
functional `simplex_solve` does not return the claimed relaxation optimum
`136/5` (it returns `-376/9`), and `gomory_solve` does not return the
claimed integer value `32` (it returns `-36`). -/
theorem C1_counterexample :
    simplexOptimum (simplex_solve 100 2 sampleConstraints sampleObjective)
        = some (-376 / 9)
    ∧ ((-376 : Rat) / 9 ≠ 136 / 5)
    ∧ gomoryQuadSummary (gomory_solve 100 2 sampleConstraints sampleObjective)
        = some (-36, [(1, 2), (0, 3)])
    ∧ ((-36 : Rat) ≠ 32) := by
  exact ⟨by decide, by decide, by decide, by decide⟩

/-- C1, amended: on the worked input the functional `simplex_solve` returns
optimum `-376/9` (the LP maximum `376/9` under the negated row-0 sign
convention) at `x_1 = 61/18`, `x_2 = 22/9`; this relaxation is not integral,
so the Gomory extension runs, and `gomory_solve` returns the 4-tuple with
integer optimum `-36` (the ILP maximum `36`, sign-flipped) and solution
`x_1 = 3`, `x_2 = 2`. -/
theorem C1_amended :
    simplexOptimum (simplex_solve 100 2 sampleConstraints sampleObjective)
        = some (-376 / 9)
    ∧ simplexSolution (simplex_solve 100 2 sampleConstraints sampleObjective)
        = some [(1, 22 / 9), (0, 61 / 18)]
    ∧ relaxIntegral (simplex_solve 100 2 sampleConstraints sampleObjective)
        = some false
    ∧ gomoryQuadSummary (gomory_solve 100 2 sampleConstraints sampleObjective)
        = some (-36, [(1, 2), (0, 3)]) := by
  exact ⟨by decide, by decide, by decide, by decide⟩

/-- C2, code evaluation at the failing input `num_vars = 1`, constraints
`[1x_1 >= 5]`: the claim requires `1 + num_vars + slack + artificial =
1 + 1 + 1 + 1 = 4` columns with an artificial column for the `>=` row, but
the counting loop credits the artificial budget to `<=` instead of `>=`, so
the built tableau has only 3 columns, the reported artificial count is 0,
and the artificial coefficient of the `>=` row is written into the RHS column
and overwritten by the RHS (row `[1, -1, 5]`). -/
theorem C2_tableau_columns :
    ((construct_simplex_table [⟨[(1, 1)], .ge, 5⟩] 1).1.headD []).length = 3
    ∧ (construct_simplex_table [⟨[(1, 1)], .ge, 5⟩] 1).2.2.2 = 0
    ∧ (construct_simplex_table [⟨[(1, 1)], .ge, 5⟩] 1).1
        = [[0, 0, 0], [1, -1, 5]]
    ∧ (3 : Nat) ≠ 1 + 1 + 1 + 1 := by
  exact ⟨by decide, by decide, by decide, by decide⟩

/-- Input on which the functional and object-oriented pipelines disagree:
`num_vars = 2`, constraints `1x_1 + 0x_2 <= 7` and `1x_1 + 0x_2 <= 9`,
`maximize 1x_1 + 0x_2`. -/
def c4Constraints : List Constraint :=
  [⟨[(1, 1), (0, 2)], .le, 7⟩, ⟨[(1, 1), (0, 2)], .le, 9⟩]

/-- The objective of the C4 disagreement input. -/
def c4Objective : Objective := ⟨true, [(1, 1), (0, 2)]⟩

/-- C4, counterexample: the functional `simplex_solve` and the OO
`SimplexMethod.solve` return different decision-variable solution mappings
on the input `maximize 1x_1 + 0x_2` subject to `1x_1 + 0x_2 <= 7`,
`1x_1 + 0x_2 <= 9` (functional: `x_1 = 7`; OO: `x_1 = 9`). -/
theorem C4_counterexample :
    simplexSolution (simplex_solve 60 2 c4Constraints c4Objective)
      ≠ simplexSolution (oo_solve 60 2 c4Constraints c4Objective) := by
  decide

/-- C4, amended: the two implementations do not in general compute the same
results.  The OO re-normalization scales row `row + 1`
(`SimplexTable.multiply_const_row` reads index + 1) while the functional
version scales row `row`, and the OO pipeline never executes phase 1, so
its `basic_vars` stay 0.  On the C4 input both solves succeed with optimum
`-7`, but the functional solution is `x_1 = 7, x_2 = 0` while the OO
solution is `x_1 = 9, x_2 = 0`; already on the worked example the two
post-re-normalization objective rows differ. -/
theorem C4_amended :
    simplexOptimum (simplex_solve 60 2 c4Constraints c4Objective) = some (-7)
    ∧ simplexSolution (simplex_solve 60 2 c4Constraints c4Objective)
        = some [(0, 7), (1, 0)]
    ∧ simplexOptimum (oo_solve 60 2 c4Constraints c4Objective) = some (-7)
    ∧ simplexSolution (oo_solve 60 2 c4Constraints c4Objective)
        = some [(0, 9), (1, 0)]
    ∧ (∀ (t : Table) (c : Rat) (i : Nat),
        oo_multiply_const_row t c i = multiply_const_row c (t.getD (i + 1) []))
    ∧ firstHist (simplex_solve 60 2 sampleConstraints sampleObjective)
        = some [[8, 6, 0, 0, 0], [2, 5, 1, 0, 19], [4, 1, 0, 1, 16]]
    ∧ firstHist (oo_solve 60 2 sampleConstraints sampleObjective)
        = some [[24, -26, -8, 8, -24], [2, 5, 1, 0, 19], [4, 1, 0, 1, 16]] := by
  exact ⟨by decide, by decide, by decide, by decide, fun t c i => rfl,
    by decide, by decide⟩

/-- The infeasible scenario of the spec: `1x_1 >= 5` together with
`1x_1 <= 2` over a single variable. -/
def c5Constraints : List Constraint :=
  [⟨[(1, 1)], .ge, 5⟩, ⟨[(1, 1)], .le, 2⟩]

/-- C5, code evaluation at the failing input: on the infeasible scenario the
functional solve crashes with a `TypeError` (the body of the phase-1 loop
calls the module-level `find_key_column()` without its required positional
argument) before any infeasibility check runs, instead of raising
`ValueError("Infeasible solution")` as the claim requires. -/
theorem C5_infeasible_crash :
    solveErr (simplex_solve 100 1 c5Constraints ⟨false, [(1, 1)]⟩)
        = some .typeError
    ∧ PyErr.typeError ≠ PyErr.valueError "Infeasible solution" :=
  ⟨by decide, by decide⟩

end ConcreteRuns

/-- C3, counterexample: the objective row `[-1, 1]` (one variable column,
RHS `1`) has every non-RHS entry `≤ 0`, which the claim says makes
`check_condition` true, yet `check_condition` is false because the source
filters the whole row `F = simplex_table[0]`, the RHS entry included. -/
theorem C3_counterexample :
    check_condition [[(-1 : Rat), 1]] = false
    ∧ ∀ x ∈ [(-1 : Rat)], x ≤ 0 := by
  refine ⟨by decide, ?_⟩
  intro x hx
  simp only [List.mem_singleton] at hx
  simp [hx]

/-- C3, amended: `check_condition` returns true iff every entry of the
objective row, the RHS entry included, is `≤ 0`; the phase-2 pivot loop
performs no further pivot exactly when this condition holds (a call with
remaining fuel returns its state unchanged when the condition is true, and
any state it returns satisfies the condition). -/
theorem C3_amended :
    (∀ t : Table, check_condition t = true ↔ ∀ x ∈ t.headD [], x ≤ 0)
    ∧ (∀ (f : Nat) (t : Table) (b : List Nat) (h : List Table)
        (bh : List (List Nat)), check_condition t = true →
        phase2Loop (f + 1) t b h bh = .ok (t, b, h, bh))
    ∧ (∀ (f : Nat) (t : Table) (b : List Nat) (h : List Table)
        (bh : List (List Nat)) (t' : Table) (b' : List Nat) (h' : List Table)
        (bh' : List (List Nat)),
        phase2Loop f t b h bh = .ok (t', b', h', bh') →
        check_condition t' = true) := by
  refine ⟨?_, ?_, ?_⟩
  · intro t
    simp [check_condition, List.all_eq_true]
  · intro f t b h bh hc
    simp [phase2Loop, hc]
  · intro f
    induction f with
    | zero =>
      intro t b h bh t' b' h' bh' hyp
      simp [phase2Loop] at hyp
    | succ f ih =>
      intro t b h bh t' b' h' bh' hyp
      by_cases hc : check_condition t
      · rw [phase2Loop, if_pos hc] at hyp
        obtain ⟨rfl, rfl, rfl, rfl⟩ := by
          simpa using hyp
        exact hc
      · rw [phase2Loop, if_neg hc] at hyp
        cases hfk : find_key_row t (find_key_column t) with
        | error e => rw [hfk] at hyp; simp at hyp
        | ok kw =>
          rw [hfk] at hyp
          exact ih _ _ _ _ _ _ _ _ hyp

/-- C3, witness: on the already-optimal objective row `[-1, 0]` the
condition holds and the phase-2 loop returns its state without pivoting. -/
theorem C3_witness :
    check_condition [[(-1 : Rat), 0]] = true
    ∧ phase2Loop 1 [[(-1 : Rat), 0]] [0] [] []
        = .ok ([[(-1 : Rat), 0]], [0], [], []) :=
  ⟨by decide, C3_amended.2.1 0 [[(-1 : Rat), 0]] [0] [] [] (by decide)⟩

/-- C7: for a rectangular tableau and an in-range pivot position with a
nonzero pivot entry, one `simplex_step` makes the key column a unit vector
(exactly 1 in the key row, 0 in every other row) and records the key column
as the basic variable of the key row. -/
theorem C7_pivot_unit_column (t : Table) (b : List Nat) (kr kc ncols : Nat)
    (hrect : ∀ row ∈ t, row.length = ncols)
    (hkr : kr < t.length) (hkc : kc < ncols) (hkrb : kr < b.length)
    (hpiv : (t.getD kr []).getD kc 0 ≠ 0) :
    ((simplex_step t b kc kr).1.getD kr []).getD kc 0 = 1
    ∧ (∀ i, i < (simplex_step t b kc kr).1.length → i ≠ kr →
        ((simplex_step t b kc kr).1.getD i []).getD kc 0 = 0)
    ∧ (simplex_step t b kc kr).2.getD kr 0 = kc := by
  have ht0 : 0 < t.length := Nat.lt_of_le_of_lt (Nat.zero_le kr) hkr
  have hlen : ∀ i, i < t.length → (t.getD i []).length = ncols := by
    intro i hi
    rw [List.getD_eq_getElem _ _ hi]
    exact hrect _ (List.getElem_mem _)
  have hhead : (t.headD []).length = ncols := by
    rw [headD_eq_getD]; exact hlen 0 ht0
  have hstep1 : (simplex_step t b kc kr).1
      = make_key_column_zero
          (normalize_to_pivot t kr ((t.getD kr []).getD kc 0)) kc kr := rfl
  have hstep2 : (simplex_step t b kc kr).2 = b.set kr kc := rfl
  have ht1len :
      (normalize_to_pivot t kr ((t.getD kr []).getD kc 0)).length
        = t.length := by
    simp [normalize_to_pivot]
  have h1rows : ∀ i, i < t.length →
      ((normalize_to_pivot t kr ((t.getD kr []).getD kc 0)).getD i []).length
        = ncols := by
    intro i hi
    by_cases h : i = kr
    · subst h
      simp only [normalize_to_pivot]
      rw [getD_set_self _ _ _ _ hi, List.length_mapIdx]
      exact hlen i hi
    · simp only [normalize_to_pivot]
      rw [getD_set_ne _ _ _ _ _ (fun hh => h hh.symm)]
      exact hlen i hi
  have h1head :
      ((normalize_to_pivot t kr ((t.getD kr []).getD kc 0)).headD []).length
        = ncols := by
    rw [headD_eq_getD]; exact h1rows 0 ht0
  have hkey1 :
      ((normalize_to_pivot t kr ((t.getD kr []).getD kc 0)).getD kr []).getD
          kc 0 = 1 := by
    simp only [normalize_to_pivot]
    rw [getD_set_self _ _ _ _ hkr]
    rw [getD_mapIdx _ _ _ _ (by rw [hlen kr hkr]; exact hkc)]
    rw [hhead, if_pos hkc]
    exact div_self hpiv
  refine ⟨?_, ?_, ?_⟩
  · rw [hstep1]
    simp only [make_key_column_zero]
    rw [getD_mapIdx _ _ _ _ (by rw [ht1len]; exact hkr)]
    rw [if_pos rfl]
    exact hkey1
  · intro i hi hne
    rw [hstep1] at hi ⊢
    simp only [make_key_column_zero] at hi ⊢
    rw [List.length_mapIdx, ht1len] at hi
    rw [getD_mapIdx _ _ _ _ (by rw [ht1len]; exact hi)]
    rw [if_neg hne]
    rw [getD_mapIdx _ _ _ _ (by rw [h1rows i hi]; exact hkc)]
    rw [h1head, if_pos hkc, hkey1]
    ring
  · rw [hstep2]
    exact getD_set_self _ _ _ _ hkrb

/-- C7, witness: a concrete pivot at row 1, column 0 of `[[2, 1], [4, 3]]`
produces a unit key column and basic-variable entry 0 in row 1. -/
theorem C7_witness :
    ((simplex_step [[2, 1], [4, 3]] [0, 0] 0 1).1.getD 1 []).getD 0 0 = 1
    ∧ (∀ i, i < (simplex_step [[2, 1], [4, 3]] [0, 0] 0 1).1.length →
        i ≠ 1 →
        ((simplex_step [[2, 1], [4, 3]] [0, 0] 0 1).1.getD i []).getD 0 0 = 0)
    ∧ (simplex_step [[2, 1], [4, 3]] [0, 0] 0 1).2.getD 1 0 = 0 :=
  C7_pivot_unit_column [[2, 1], [4, 3]] [0, 0] 1 0 2
    (by decide) (by decide) (by decide) (by decide) (by decide)

/-- A fold whose step keeps the accumulator or replaces it by the scanned
element preserves any property shared by the start value and the list. -/
theorem foldl_ite_mem {α : Type _} (P : α → Prop) (f : α → α → α)
    (hf : ∀ a x, f a x = a ∨ f a x = x) :
    ∀ (L : List α) (m : α), P m → (∀ x ∈ L, P x) → P (L.foldl f m) := by
  intro L
  induction L with
  | nil => intro m hm _; exact hm
  | cons x L ih =>
    intro m hm hL
    rw [List.foldl_cons]
    rcases hf m x with h | h
    · exact ih _ (by rw [h]; exact hm) fun y hy =>
        hL y (List.mem_cons_of_mem _ hy)
    · exact ih _ (by rw [h]; exact hL x (List.mem_cons_self x L)) fun y hy =>
        hL y (List.mem_cons_of_mem _ hy)

/-- The Gomory source-row index is a constraint-row index: at least 1 and
less than the row count. -/
theorem find_max_fractional_index_bounds (t : Table) (h2 : 2 ≤ t.length) :
    1 ≤ find_max_fractional_index t
    ∧ find_max_fractional_index t < t.length := by
  unfold find_max_fractional_index
  refine foldl_ite_mem (fun m => 1 ≤ m ∧ m < t.length) _ ?_ _ _ ?_ ?_
  · intro a x
    by_cases h : pyFloatFrac ((t.getD x []).getLastD 0) >
        pyFloatFrac ((t.getD a []).getLastD 0)
    · exact Or.inr (if_pos h)
    · exact Or.inl (if_neg h)
  · exact ⟨le_refl 1, by omega⟩
  · intro x hx
    rw [List.mem_range'] at hx
    obtain ⟨i, hi, rfl⟩ := hx
    omega

/-- `getD` of `dropLast` in range. -/
theorem getD_dropLast {α : Type _} (l : List α) (j : Nat) (d : α)
    (h : j < l.length - 1) : l.dropLast.getD j d = l.getD j d := by
  have h1 : j < l.dropLast.length := by simp; omega
  have h2 : j < l.length := by omega
  rw [List.getD_eq_getElem _ _ h1, List.getD_eq_getElem _ _ h2]
  exact List.getElem_dropLast l j h1

/-- Length of the before-last insertion on a nonempty row. -/
theorem length_insertBeforeLast (row : Row) (v : Rat) (h : 1 ≤ row.length) :
    (insertBeforeLast row v).length = row.length + 1 := by
  simp [insertBeforeLast]
  omega

/-- Entries of the before-last insertion on a nonempty row: positions below
`length - 1` are unchanged, position `length - 1` holds the inserted value,
position `length` holds the old last entry. -/
theorem getD_insertBeforeLast (row : Row) (v : Rat) (j : Nat)
    (h : 1 ≤ row.length) :
    (insertBeforeLast row v).getD j 0 =
      if j < row.length - 1 then row.getD j 0
      else if j = row.length - 1 then v
      else if j = row.length then row.getLastD 0
      else 0 := by
  unfold insertBeforeLast
  have hdl : row.dropLast.length = row.length - 1 := by simp
  by_cases h1 : j < row.length - 1
  · rw [if_pos h1, getD_append_left _ _ _ _ (by omega), getD_dropLast _ _ _ h1]
  · rw [if_neg h1, getD_append_right _ _ _ _ (by omega), hdl]
    by_cases h2 : j = row.length - 1
    · rw [if_pos h2, h2]
      simp
    · rw [if_neg h2]
      by_cases h3 : j = row.length
      · rw [if_pos h3, h3]
        have : row.length - (row.length - 1) = 1 := by omega
        simp [this]
      · rw [if_neg h3]
        have hlen2 : ([v, row.getLastD 0] : Row).length ≤ j - (row.length - 1) := by
          simp
          omega
        rw [List.getD_eq_default _ _ hlen2]

/-- `getLastD` of an append of a singleton. -/
theorem getLastD_append_single {α : Type _} (l : List α) (x d : α) :
    (l ++ [x]).getLastD d = x := by
  rw [getLastD_eq_getD]
  simp only [List.length_append, List.length_singleton]
  rw [getD_append_right _ _ _ _ (by omega)]
  simp

/-- Source row read by the cut-construction loop of `add_clipping` (the
selected table row, after the new-column insertion). -/
def cutSourceRow (t : Table) (b : List Nat) : Row :=
  (add_clipping t b).1.getD (find_max_fractional_index t) []

/-- The cut row appended by `add_clipping`. -/
def cutRow (t : Table) (b : List Nat) : Row :=
  (add_clipping t b).1.getLastD []

/-- C8: for every cut added by `add_clipping` on a rectangular tableau, at
each column where the source row holds a nonzero rational `a` the cut row
holds exactly `-(a.num mod a.den) / a.den` (with positive denominator and
nonnegative mod); the freshly inserted cut-slack column (position
`ncols - 1`) holds 1 in the cut row and 0 in every other row; the RHS of the
cut row is `≤ 0`; and the new basic variable registered is `len(table) - 1`
after the append, i.e. the old row count. -/
theorem C8_cut_row (t : Table) (b : List Nat) (ncols : Nat)
    (h2 : 2 ≤ t.length) (hrect : ∀ row ∈ t, row.length = ncols)
    (hn : 1 ≤ ncols) :
    (∀ j, j < ncols + 1 → (cutSourceRow t b).getD j 0 ≠ 0 →
        (cutRow t b).getD j 0
          = get_fraction
              (-(((cutSourceRow t b).getD j 0).num
                  % (((cutSourceRow t b).getD j 0).den : Int)))
              (((cutSourceRow t b).getD j 0).den : Int)
        ∧ 0 ≤ ((cutSourceRow t b).getD j 0).num
              % (((cutSourceRow t b).getD j 0).den : Int)
        ∧ 0 < ((((cutSourceRow t b).getD j 0).den : Int)))
    ∧ (cutRow t b).getD (ncols - 1) 0 = 1
    ∧ (∀ i, i < (add_clipping t b).1.length - 1 →
        ((add_clipping t b).1.getD i []).getD (ncols - 1) 0 = 0)
    ∧ (cutRow t b).getLastD 0 ≤ 0
    ∧ (add_clipping t b).2 = b ++ [t.length] := by
  have hb := find_max_fractional_index_bounds t h2
  have ht0 : 0 < t.length := by omega
  have hlen : ∀ i, i < t.length → (t.getD i []).length = ncols := by
    intro i hi
    rw [List.getD_eq_getElem _ _ hi]
    exact hrect _ (List.getElem_mem _)
  have hhead : (t.headD []).length = ncols := by
    rw [headD_eq_getD]; exact hlen 0 ht0
  have hac1 : (add_clipping t b).1
      = t.map (fun row => insertBeforeLast row 0)
        ++ [List.zipWith
              (fun c init => if c ≠ 0 then
                  get_fraction (-(c.num % (c.den : Int))) (c.den : Int)
                else init)
              ((t.map (fun row => insertBeforeLast row 0)).getD
                (find_max_fractional_index t) [])
              (insertBeforeLast (List.replicate (t.headD []).length 0) 1)] :=
    rfl
  have hrows : ((t.map (fun row => insertBeforeLast row 0)).getD
      (find_max_fractional_index t) [])
      = insertBeforeLast (t.getD (find_max_fractional_index t) []) 0 :=
    getD_map _ _ _ _ [] hb.2
  have hrowlen : (t.getD (find_max_fractional_index t) []).length = ncols :=
    hlen _ hb.2
  have hsrc : cutSourceRow t b
      = insertBeforeLast (t.getD (find_max_fractional_index t) []) 0 := by
    unfold cutSourceRow
    rw [hac1, getD_append_left _ _ _ _ (by rw [List.length_map]; exact hb.2)]
    exact hrows
  have hcut : cutRow t b
      = List.zipWith
          (fun c init => if c ≠ 0 then
              get_fraction (-(c.num % (c.den : Int))) (c.den : Int)
            else init)
          (cutSourceRow t b) (insertBeforeLast (List.replicate ncols 0) 1) := by
    unfold cutRow
    rw [hac1, getLastD_append_single, hrows, ← hsrc, hhead]
  have hsrclen : (cutSourceRow t b).length = ncols + 1 := by
    rw [hsrc, length_insertBeforeLast _ _ (by rw [hrowlen]; omega), hrowlen]
  have hinitlen :
      (insertBeforeLast (List.replicate ncols (0 : Rat)) 1).length
        = ncols + 1 := by
    rw [length_insertBeforeLast _ _ (by simp; omega)]
    simp
  have hreplast : (List.replicate ncols (0 : Rat)).getLastD 0 = 0 := by
    rw [getLastD_eq_getD]
    simp only [List.length_replicate]
    rw [getD_replicate _ _ _ _ (by omega)]
  have hinit : ∀ j,
      (insertBeforeLast (List.replicate ncols (0 : Rat)) 1).getD j 0
        = if j = ncols - 1 then 1 else 0 := by
    intro j
    rw [getD_insertBeforeLast _ _ _ (by simp; omega)]
    simp only [List.length_replicate]
    by_cases h1 : j < ncols - 1
    · rw [if_pos h1, getD_replicate _ _ _ _ (by omega), if_neg (by omega)]
    · rw [if_neg h1]
      by_cases hq : j = ncols - 1
      · rw [if_pos hq, if_pos hq]
      · rw [if_neg hq, if_neg hq]
        by_cases h3 : j = ncols
        · rw [if_pos h3]; exact hreplast
        · rw [if_neg h3]
  have hsrcmid : (cutSourceRow t b).getD (ncols - 1) 0 = 0 := by
    rw [hsrc, getD_insertBeforeLast _ _ _ (by rw [hrowlen]; omega), hrowlen,
      if_neg (by omega), if_pos rfl]
  have hcutget : ∀ j, j < ncols + 1 → (cutRow t b).getD j 0
      = if (cutSourceRow t b).getD j 0 ≠ 0 then
          get_fraction
            (-(((cutSourceRow t b).getD j 0).num
                % (((cutSourceRow t b).getD j 0).den : Int)))
            (((cutSourceRow t b).getD j 0).den : Int)
        else (insertBeforeLast (List.replicate ncols 0) 1).getD j 0 := by
    intro j hj
    rw [hcut]
    exact getD_zipWith _ _ _ _ _ 0 0
      (by rw [hsrclen]; exact hj) (by rw [hinitlen]; exact hj)
  have hcutlen : (cutRow t b).length = ncols + 1 := by
    rw [hcut, List.length_zipWith, hsrclen, hinitlen]
    simp
  refine ⟨?_, ?_, ?_, ?_, rfl⟩
  · intro j hj hne
    refine ⟨?_, ?_, ?_⟩
    · rw [hcutget j hj, if_pos hne]
    · exact Int.emod_nonneg _
        (Int.natCast_ne_zero.mpr ((cutSourceRow t b).getD j 0).den_nz)
    · exact Int.natCast_pos.mpr ((cutSourceRow t b).getD j 0).pos
  · rw [hcutget (ncols - 1) (by omega), hsrcmid, if_neg (by simp), hinit,
      if_pos rfl]
  · intro i hi
    rw [hac1] at hi
    simp only [List.length_append, List.length_map, List.length_singleton,
      Nat.add_sub_cancel] at hi
    rw [hac1, getD_append_left _ _ _ _ (by rw [List.length_map]; exact hi),
      getD_map _ _ _ _ [] hi,
      getD_insertBeforeLast _ _ _ (by rw [hlen i hi]; omega), hlen i hi,
      if_neg (by omega), if_pos rfl]
  · rw [getLastD_eq_getD, hcutlen, Nat.add_sub_cancel,
      hcutget ncols (by omega)]
    by_cases hz : (cutSourceRow t b).getD ncols 0 ≠ 0
    · rw [if_pos hz]
      unfold get_fraction
      refine div_nonpos_iff.mpr (Or.inr ⟨?_, ?_⟩)
      · have hm := Int.emod_nonneg ((cutSourceRow t b).getD ncols 0).num
          (Int.natCast_ne_zero.mpr ((cutSourceRow t b).getD ncols 0).den_nz)
        exact_mod_cast (by omega :
          (-(((cutSourceRow t b).getD ncols 0).num
              % (((cutSourceRow t b).getD ncols 0).den : Int)) : Int) ≤ 0)
      · exact_mod_cast Int.natCast_nonneg _
    · rw [if_neg hz, hinit, if_neg (by omega)]

/-- C8, witness: the cut added from the table `[[0, 1], [1, 7/2]]` (source
row 1, fractional RHS `7/2`) satisfies all the cut-row properties. -/
theorem C8_witness :
    (∀ j, j < 2 + 1 →
      (cutSourceRow [[0, 1], [1, 7 / 2]] [0, 1]).getD j 0 ≠ 0 →
        (cutRow [[0, 1], [1, 7 / 2]] [0, 1]).getD j 0
          = get_fraction
              (-(((cutSourceRow [[0, 1], [1, 7 / 2]] [0, 1]).getD j 0).num
                  % (((cutSourceRow [[0, 1], [1, 7 / 2]] [0, 1]).getD
                      j 0).den : Int)))
              (((cutSourceRow [[0, 1], [1, 7 / 2]] [0, 1]).getD j 0).den : Int)
        ∧ 0 ≤ ((cutSourceRow [[0, 1], [1, 7 / 2]] [0, 1]).getD j 0).num
              % (((cutSourceRow [[0, 1], [1, 7 / 2]] [0, 1]).getD j 0).den : Int)
        ∧ 0 < ((((cutSourceRow [[0, 1], [1, 7 / 2]] [0, 1]).getD
            j 0).den : Int)))
    ∧ (cutRow [[0, 1], [1, 7 / 2]] [0, 1]).getD (2 - 1) 0 = 1
    ∧ (∀ i, i < (add_clipping [[0, 1], [1, 7 / 2]] [0, 1]).1.length - 1 →
        ((add_clipping [[0, 1], [1, 7 / 2]] [0, 1]).1.getD i []).getD
          (2 - 1) 0 = 0)
    ∧ (cutRow [[0, 1], [1, 7 / 2]] [0, 1]).getLastD 0 ≤ 0
    ∧ (add_clipping [[0, 1], [1, 7 / 2]] [0, 1]).2
        = [0, 1] ++ [([[0, 1], [1, 7 / 2]] : Table).length] :=
  C8_cut_row [[0, 1], [1, 7 / 2]] [0, 1] 2 (by decide) (by decide) (by decide)

/-- The fold pattern of `get_key_row` (and `find_key_column`): last index
below `n` attaining the maximal value of `g`, starting from 0. -/
def argLast (g : Nat → Rat) (n : Nat) : Nat :=
  (List.range n).foldl (fun a b => if g b ≥ g a then b else a) 0

/-- Unfolding `argLast` at a successor. -/
theorem argLast_succ (g : Nat → Rat) (n : Nat) :
    argLast g (n + 1) = if g n ≥ g (argLast g n) then n else argLast g n := by
  unfold argLast
  rw [List.range_succ, List.foldl_append]
  rfl

/-- `argLast` stays below a positive bound. -/
theorem argLast_lt (g : Nat → Rat) : ∀ n, 0 < n → argLast g n < n := by
  intro n
  induction n with
  | zero => intro h; omega
  | succ m ih =>
    intro _
    rw [argLast_succ]
    by_cases h : g m ≥ g (argLast g m)
    · rw [if_pos h]; omega
    · rw [if_neg h]
      rcases Nat.eq_zero_or_pos m with hm | hm
      · subst hm
        have : argLast g 0 = 0 := rfl
        omega
      · exact Nat.lt_succ_of_lt (ih hm)

/-- `argLast` attains the maximum of `g` on `[0, n)`. -/
theorem argLast_max (g : Nat → Rat) : ∀ n j, j < n → g j ≤ g (argLast g n) := by
  intro n
  induction n with
  | zero => intro j hj; omega
  | succ m ih =>
    intro j hj
    rw [argLast_succ]
    by_cases h : g m ≥ g (argLast g m)
    · rw [if_pos h]
      rcases Nat.lt_succ_iff_lt_or_eq.mp hj with hj' | hj'
      · exact le_trans (ih j hj') h
      · subst hj'; exact le_refl _
    · rw [if_neg h]
      rcases Nat.lt_succ_iff_lt_or_eq.mp hj with hj' | hj'
      · exact ih j hj'
      · subst hj'; exact le_of_lt (lt_of_not_ge h)

/-- Indices after `argLast` carry strictly smaller values: the `≥` update of
the fold moves the accumulator onto any later index that ties or beats it,
so the result is the LAST maximizer. -/
theorem argLast_strict_after (g : Nat → Rat) :
    ∀ n j, argLast g n < j → j < n → g j < g (argLast g n) := by
  intro n
  induction n with
  | zero => intro j h1 h2; omega
  | succ m ih =>
    intro j h1 h2
    rw [argLast_succ] at h1 ⊢
    by_cases h : g m ≥ g (argLast g m)
    · rw [if_pos h] at h1 ⊢
      omega
    · rw [if_neg h] at h1 ⊢
      rcases Nat.lt_succ_iff_lt_or_eq.mp h2 with hj' | hj'
      · exact ih j h1 hj'
      · subst hj'; exact lt_of_not_ge h

/-- RHS entry of a tableau row (Python `simplex_table[i][-1]`). -/
def rhsAt (t : Table) (i : Nat) : Rat := (t.getD i []).getLastD 0

/-- C6, amended: whenever some constraint row has a negative RHS, the Gomory
key row chosen by `get_key_row` is a constraint row with negative RHS whose
RHS is minimal (most negative), and ties are broken by the LATEST such row:
every strictly later constraint row has a strictly larger RHS. -/
theorem C6_amended (t : Table)
    (hneg : ∃ i, 1 ≤ i ∧ i < t.length ∧ rhsAt t i < 0) :
    1 ≤ get_key_row t ∧ get_key_row t < t.length
    ∧ rhsAt t (get_key_row t) < 0
    ∧ (∀ j, 1 ≤ j → j < t.length → rhsAt t j < 0 →
        rhsAt t (get_key_row t) ≤ rhsAt t j)
    ∧ (∀ j, get_key_row t < j → j < t.length →
        rhsAt t (get_key_row t) < rhsAt t j) := by
  obtain ⟨i, hi1, hi2, hin⟩ := hneg
  have ht2 : 2 ≤ t.length := by omega
  have hgkr : get_key_row t
      = argLast
          (fun b => |((t.drop 1).map
              (fun x => if x.getLastD 0 < 0 then x.getLastD 0
                else (0 : Rat))).getD b 0|)
          ((t.drop 1).map
              (fun x => if x.getLastD 0 < 0 then x.getLastD 0
                else (0 : Rat))).length + 1 := rfl
  set L := (t.drop 1).map
      (fun x : Row => if x.getLastD 0 < 0 then x.getLastD 0 else (0 : Rat))
    with hL
  set g := fun b => |L.getD b 0| with hg
  have hLlen : L.length = t.length - 1 := by rw [hL]; simp
  have hLget : ∀ b, b < t.length - 1 → L.getD b 0
      = if rhsAt t (b + 1) < 0 then rhsAt t (b + 1) else 0 := by
    intro b hb
    rw [hL, getD_map _ _ _ _ [] (by simp; omega), getD_drop]
    unfold rhsAt
    rw [Nat.add_comm 1 b]
  set k0 := argLast g L.length with hk0
  have hk0lt : k0 < L.length := argLast_lt g L.length (by omega)
  have hgneg : ∀ j, 1 ≤ j → j < t.length → rhsAt t j < 0 →
      g (j - 1) = -rhsAt t j := by
    intro j h1 h2 h3
    simp only [hg]
    rw [hLget (j - 1) (by omega)]
    have hj1 : j - 1 + 1 = j := by omega
    rw [hj1, if_pos h3, abs_of_neg h3]
  have hgipos : 0 < g (i - 1) := by
    rw [hgneg i hi1 hi2 hin]
    linarith
  have hk0pos : 0 < g k0 :=
    lt_of_lt_of_le hgipos (argLast_max g L.length (i - 1) (by omega))
  have hk0neg : rhsAt t (k0 + 1) < 0 := by
    by_contra h
    have hz : L.getD k0 0 = 0 := by
      rw [hLget k0 (by omega), if_neg h]
    simp only [hg] at hk0pos
    rw [hz] at hk0pos
    simp at hk0pos
  have hgk0 : g k0 = -rhsAt t (k0 + 1) := by
    simp only [hg]
    rw [hLget k0 (by omega), if_pos hk0neg, abs_of_neg hk0neg]
  rw [hgkr]
  refine ⟨by omega, by omega, hk0neg, ?_, ?_⟩
  · intro j hj1 hj2 hjneg
    have h1 := argLast_max g L.length (j - 1) (by omega)
    rw [hgneg j hj1 hj2 hjneg, hgk0] at h1
    linarith
  · intro j hjgt hjlt
    have hstrict := argLast_strict_after g L.length (j - 1)
      (by omega) (by omega)
    by_cases hc : rhsAt t j < 0
    · rw [hgneg j (by omega) hjlt hc, hgk0] at hstrict
      linarith
    · linarith

/-- C6, counterexample: on a table whose constraint rows 1 and 2 both have
RHS `-1` (a tie at the most negative RHS), the claim requires the earliest
row, row 1, but `get_key_row` (whose `>=` update keeps moving to later
ties) returns row 2. -/
theorem C6_counterexample :
    rhsAt [[0, 0], [0, -1], [0, -1]] 1 = -1
    ∧ rhsAt [[0, 0], [0, -1], [0, -1]] 2 = -1
    ∧ get_key_row [[0, 0], [0, -1], [0, -1]] = 2
    ∧ (2 : Nat) ≠ 1 := by
  exact ⟨by decide, by decide, by decide, by decide⟩

/-- C6, witness: on `[[0, 0], [0, -2], [0, -1]]` (unique most negative RHS
`-2` in row 1) the amended selection properties hold. -/
theorem C6_witness :
    1 ≤ get_key_row [[0, 0], [0, -2], [0, -1]]
    ∧ get_key_row [[0, 0], [0, -2], [0, -1]]
        < ([[0, 0], [0, -2], [0, -1]] : Table).length
    ∧ rhsAt [[0, 0], [0, -2], [0, -1]]
        (get_key_row [[0, 0], [0, -2], [0, -1]]) < 0
    ∧ (∀ j, 1 ≤ j → j < ([[0, 0], [0, -2], [0, -1]] : Table).length →
        rhsAt [[0, 0], [0, -2], [0, -1]] j < 0 →
        rhsAt [[0, 0], [0, -2], [0, -1]]
            (get_key_row [[0, 0], [0, -2], [0, -1]])
          ≤ rhsAt [[0, 0], [0, -2], [0, -1]] j)
    ∧ (∀ j, get_key_row [[0, 0], [0, -2], [0, -1]] < j →
        j < ([[0, 0], [0, -2], [0, -1]] : Table).length →
        rhsAt [[0, 0], [0, -2], [0, -1]]
            (get_key_row [[0, 0], [0, -2], [0, -1]])
          < rhsAt [[0, 0], [0, -2], [0, -1]] j) :=
  C6_amended [[0, 0], [0, -2], [0, -1]]
    ⟨1, by decide, by decide, by decide⟩

/-- The ratio tested by the minimum-ratio rule: RHS over key-column entry. -/
def thetaRatio (t : Table) (kc i : Nat) : Rat :=
  (t.getD i []).getLastD 0 / (t.getD i []).getD kc 0

/-- The loop body of `find_key_row`, named for the proofs. -/
def fkrStep (t : Table) (kc : Nat) (acc : Option Rat × Nat) (i : Nat) :
    Option Rat × Nat :=
  if 0 < (t.getD i []).getD kc 0 then
    let val := (t.getD i []).getLastD 0 / (t.getD i []).getD kc 0
    match acc.1 with
    | none => (some val, i)
    | some m => if val < m then (some val, i) else acc
  else acc

/-- `find_key_row` in terms of the named loop body. -/
theorem find_key_row_eq_fold (t : Table) (kc : Nat) :
    find_key_row t kc
      = match ((List.range' 1 (t.length - 1)).foldl (fkrStep t kc)
            (none, 0)).1 with
        | none => .error (.valueError "Unbounded solution")
        | some m =>
          .ok (((List.range' 1 (t.length - 1)).foldl (fkrStep t kc)
              (none, 0)).2,
            decide (m = 0)) := rfl

/-- Invariant of the `find_key_row` fold over the row indices `1 .. n`:
either no candidate row (positive key-column entry) has been seen and the
accumulator is still `(none, 0)`, or the accumulator holds the first row
attaining the minimal ratio among the candidates seen so far. -/
theorem fkr_inv (t : Table) (kc : Nat) :
    ∀ n : Nat,
      ((((List.range' 1 n).foldl (fkrStep t kc) (none, 0)).1 = none
        ∧ ((List.range' 1 n).foldl (fkrStep t kc) (none, 0)).2 = 0
        ∧ ∀ i, 1 ≤ i → i < 1 + n → ¬(0 < (t.getD i []).getD kc 0))
      ∨ (∃ m k, (List.range' 1 n).foldl (fkrStep t kc) (none, 0) = (some m, k)
          ∧ 1 ≤ k ∧ k < 1 + n
          ∧ 0 < (t.getD k []).getD kc 0
          ∧ thetaRatio t kc k = m
          ∧ (∀ i, 1 ≤ i → i < 1 + n → 0 < (t.getD i []).getD kc 0 →
              m ≤ thetaRatio t kc i)
          ∧ (∀ i, 1 ≤ i → i < k → 0 < (t.getD i []).getD kc 0 →
              m < thetaRatio t kc i))) := by
  intro n
  induction n with
  | zero =>
    left
    refine ⟨rfl, rfl, fun i h1 h2 => ?_⟩
    omega
  | succ n ih =>
    rw [List.range'_1_concat, List.foldl_append, List.foldl_cons,
      List.foldl_nil]
    by_cases hc : 0 < (t.getD (1 + n) []).getD kc 0
    · rcases ih with ⟨h1, h2, h3⟩ | ⟨m, k, heq, hk1, hk2, hkc', hr, hmin, hfst⟩
      · have hpe : (List.range' 1 n).foldl (fkrStep t kc) (none, 0)
            = ((none : Option Rat), 0) := Prod.ext h1 h2
        rw [hpe]
        have hstep : fkrStep t kc (none, 0) (1 + n)
            = (some (thetaRatio t kc (1 + n)), 1 + n) := by
          unfold fkrStep thetaRatio
          rw [if_pos hc]
        rw [hstep]
        right
        refine ⟨thetaRatio t kc (1 + n), 1 + n, rfl, by omega, by omega, hc,
          rfl, ?_, ?_⟩
        · intro i hi1 hi2 hic
          rcases Nat.lt_succ_iff_lt_or_eq.mp (by omega : i - 1 < n + 1)
            with hlt | hEq
          · exact absurd hic (h3 i hi1 (by omega))
          · have : i = 1 + n := by omega
            rw [this]
        · intro i hi1 hik hic
          exact absurd hic (h3 i hi1 (by omega))
      · rw [heq]
        have hstep : fkrStep t kc (some m, k) (1 + n)
            = if thetaRatio t kc (1 + n) < m
              then (some (thetaRatio t kc (1 + n)), 1 + n)
              else (some m, k) := by
          unfold fkrStep thetaRatio
          rw [if_pos hc]
        rw [hstep]
        by_cases hlt : thetaRatio t kc (1 + n) < m
        · rw [if_pos hlt]
          right
          refine ⟨thetaRatio t kc (1 + n), 1 + n, rfl, by omega, by omega, hc,
            rfl, ?_, ?_⟩
          · intro i hi1 hi2 hic
            by_cases hieq : i = 1 + n
            · rw [hieq]
            · exact le_of_lt (lt_of_lt_of_le hlt (hmin i hi1 (by omega) hic))
          · intro i hi1 hik hic
            exact lt_of_lt_of_le hlt (hmin i hi1 (by omega) hic)
        · rw [if_neg hlt]
          right
          refine ⟨m, k, rfl, hk1, by omega, hkc', hr, ?_, hfst⟩
          intro i hi1 hi2 hic
          by_cases hieq : i = 1 + n
          · rw [hieq]; exact le_of_not_lt hlt
          · exact hmin i hi1 (by omega) hic
    · have hstep : ∀ acc, fkrStep t kc acc (1 + n) = acc := by
        intro acc
        unfold fkrStep
        rw [if_neg hc]
      rw [hstep]
      rcases ih with ⟨h1, h2, h3⟩ | ⟨m, k, heq, hk1, hk2, hkc', hr, hmin, hfst⟩
      · left
        refine ⟨h1, h2, fun i hi1 hi2 => ?_⟩
        by_cases hieq : i = 1 + n
        · rw [hieq]; exact hc
        · exact h3 i hi1 (by omega)
      · right
        refine ⟨m, k, heq, hk1, by omega, hkc', hr, ?_, hfst⟩
        intro i hi1 hi2 hic
        by_cases hieq : i = 1 + n
        · rw [hieq] at hic; exact absurd hic hc
        · exact hmin i hi1 (by omega) hic

/-- C9: when some constraint row has a strictly positive key-column entry,
`find_key_row` succeeds with the row minimizing RHS over key-column entry
among those rows (ties broken by the earliest row) and its warning flag is
set exactly when the minimum ratio is zero (the non-fatal degeneracy
warning — the function still returns normally); when no such row exists it
fails with `ValueError("Unbounded solution")`. -/
theorem C9_min_ratio (t : Table) (kc : Nat) :
    ((∃ i, 1 ≤ i ∧ i < t.length ∧ 0 < (t.getD i []).getD kc 0) →
      ∃ k w, find_key_row t kc = .ok (k, w)
        ∧ 1 ≤ k ∧ k < t.length
        ∧ 0 < (t.getD k []).getD kc 0
        ∧ (∀ j, 1 ≤ j → j < t.length → 0 < (t.getD j []).getD kc 0 →
            thetaRatio t kc k ≤ thetaRatio t kc j)
        ∧ (∀ j, 1 ≤ j → j < k → 0 < (t.getD j []).getD kc 0 →
            thetaRatio t kc k < thetaRatio t kc j)
        ∧ (w = true ↔ thetaRatio t kc k = 0))
    ∧ ((∀ i, 1 ≤ i → i < t.length → ¬ 0 < (t.getD i []).getD kc 0) →
      find_key_row t kc = .error (.valueError "Unbounded solution")) := by
  have hinv := fkr_inv t kc (t.length - 1)
  constructor
  · rintro ⟨i, hi1, hi2, hic⟩
    rcases hinv with ⟨h1, h2, h3⟩ | ⟨m, k, heq, hk1, hk2, hkc', hr, hmin, hfst⟩
    · exact absurd hic (h3 i hi1 (by omega))
    · refine ⟨k, decide (m = 0), ?_, hk1, by omega, hkc', ?_, ?_, ?_⟩
      · rw [find_key_row_eq_fold, heq]
      · intro j hj1 hj2 hjc
        rw [hr]
        exact hmin j hj1 (by omega) hjc
      · intro j hj1 hj2 hjc
        rw [hr]
        exact hfst j hj1 hj2 hjc
      · rw [hr]
        simp
  · intro hall
    rcases hinv with ⟨h1, h2, h3⟩ | ⟨m, k, heq, hk1, hk2, hkc', hr, hmin, hfst⟩
    · rw [find_key_row_eq_fold, h1]
    · exact absurd hkc' (hall k hk1 (by omega))

/-- C9, witness: on `[[0, 0], [1, 4], [2, 4]]` with key column 0 (candidate
rows 1 and 2, ratios 4 and 2) the minimum-ratio selection properties hold;
and no warning is issued since the minimum ratio is 2, not 0. -/
theorem C9_witness :
    ∃ k w, find_key_row [[0, 0], [1, 4], [2, 4]] 0 = .ok (k, w)
      ∧ 1 ≤ k ∧ k < ([[0, 0], [1, 4], [2, 4]] : Table).length
      ∧ 0 < (([[0, 0], [1, 4], [2, 4]] : Table).getD k []).getD 0 0
      ∧ (∀ j, 1 ≤ j → j < ([[0, 0], [1, 4], [2, 4]] : Table).length →
          0 < (([[0, 0], [1, 4], [2, 4]] : Table).getD j []).getD 0 0 →
          thetaRatio [[0, 0], [1, 4], [2, 4]] 0 k
            ≤ thetaRatio [[0, 0], [1, 4], [2, 4]] 0 j)
      ∧ (∀ j, 1 ≤ j → j < k →
          0 < (([[0, 0], [1, 4], [2, 4]] : Table).getD j []).getD 0 0 →
          thetaRatio [[0, 0], [1, 4], [2, 4]] 0 k
            < thetaRatio [[0, 0], [1, 4], [2, 4]] 0 j)
      ∧ (w = true ↔ thetaRatio [[0, 0], [1, 4], [2, 4]] 0 k = 0) :=
  (C9_min_ratio [[0, 0], [1, 4], [2, 4]] 0).1 ⟨1, by decide, by decide, by decide⟩

/-- C10: whenever `simplex_solve` and `gomory_solve` both succeed,
`gomory_solve` returns the 2-tuple form exactly when the final relaxation
tableau already satisfies the integer condition (and the 4-tuple form
otherwise), and a caller that unpacks four values (as `main.py` does)
succeeds exactly on the 4-tuple form — so it fails exactly on inputs whose
relaxation is already integral. -/
theorem C10_return_arity (fuel num_vars : Nat) (cs : List Constraint)
    (obj : Objective) (r : GomoryReturn) (s : SimplexResult)
    (hs : simplex_solve fuel num_vars cs obj = .ok s)
    (hr : gomory_solve fuel num_vars cs obj = .ok r) :
    ((∃ o sol, r = .pair o sol)
      ↔ check_integer_condition (s.hist.getLastD []) = true)
    ∧ ((unpackFour r).isOk = true ↔ ¬ ∃ o sol, r = .pair o sol) := by
  constructor
  · unfold gomory_solve at hr
    rw [hs] at hr
    dsimp only at hr
    by_cases hic : check_integer_condition (s.hist.getLastD []) = true
    · rw [if_pos hic] at hr
      have hrr := Except.ok.inj hr
      exact ⟨fun _ => hic, fun _ => ⟨_, _, hrr.symm⟩⟩
    · rw [if_neg hic] at hr
      cases hgl : gomoryLoop fuel (s.hist.getLastD []) (s.bhist.getLastD [])
          (s.hist ++ [s.hist.getLastD []]) (s.bhist ++ [s.bhist.getLastD []])
        with
      | error e => rw [hgl] at hr; simp at hr
      | ok q =>
        obtain ⟨t', b', h, bh⟩ := q
        rw [hgl] at hr
        have hrr := Except.ok.inj hr
        constructor
        · intro ⟨o, sol, hp⟩
          rw [← hrr] at hp
          simp at hp
        · intro h'
          exact absurd h' hic
  · cases r with
    | pair o sol =>
      simp [unpackFour, Except.isOk, Except.toBool]
    | quad o sol h bh =>
      simp [unpackFour, Except.isOk, Except.toBool]

section ConcreteRuns2

attribute [local semireducible] Rat.mul Rat.add Rat.inv Rat.sub

set_option maxRecDepth 40000

/-- C10, witness: on `num_vars = 1`, constraint `1x_1 <= 2`,
`maximize 1x_1` the relaxation is already integral, `gomory_solve` returns
the 2-tuple `(-2, {x_1 : 2})`, and the four-value unpacking fails on it. -/
theorem C10_witness :
    ((∃ o sol, (GomoryReturn.pair (-2) [(0, 2)] : GomoryReturn)
        = .pair o sol)
      ↔ check_integer_condition
          (([[[1, 0, 0], [1, 1, 2]], [[0, -1, -2], [1, 1, 2]]] :
            List Table).getLastD []) = true)
    ∧ ((unpackFour (.pair (-2) [(0, 2)])).isOk = true
      ↔ ¬ ∃ o sol, (GomoryReturn.pair (-2) [(0, 2)] : GomoryReturn)
          = .pair o sol) :=
  C10_return_arity 100 1 [⟨[(1, 1)], .le, 2⟩] ⟨true, [(1, 1)]⟩
    (.pair (-2) [(0, 2)])
    ⟨-2, [(0, 2)], [[[1, 0, 0], [1, 1, 2]], [[0, -1, -2], [1, 1, 2]]],
      [[0, 1], [0, 0]]⟩
    (by rfl) (by rfl)

end ConcreteRuns2
